import Mathlib

/-!
Shallow embedding of `src/UE4Serialization.hpp`: the `TSubclassOfRegistration`
class-reference registry and the cereal serialization adapters for UE4 types.

Modelling conventions:
* The registry's `std::map<int, TSubclassOfType>` is embedded as an association
  list of `(Int × TSubclassOfType)` pairs kept strictly sorted by key
  (`RegSorted`), which is exactly the representation invariant of `std::map`:
  unique keys, iteration in ascending key order.
* C++ `int` identifiers are embedded as `Int`; the boundary constants
  `IntMin = -2^31` and `IntMax = 2^31 - 1` are explicit, and theorems that
  depend on the 32-bit range state it as a hypothesis or conclusion.  The
  registry code performs no wrapping arithmetic on identifiers except the
  `++NewId` scan, whose stay-in-range condition is handled explicitly.
* The opaque comparable handle `TSubclassOf<AActor>` is embedded as an
  inductive type with a default ("empty") constructor and decidable equality,
  which is all the source requires of it (`==`, default construction).
* Archives are embedded as token lists: each cereal `ar(x)` call in save mode
  appends tokens, in load mode consumes them from the front.
-/

namespace UE4Serialization

/-- Opaque polymorphic class-reference handle standing for
`TSubclassOf<AActor>`: default-constructible (`empty`, the handle produced by
`TSubclassOfType()`) and comparable for equality, which is all the adapter
layer uses. -/
inductive TSubclassOfType where
  | empty : TSubclassOfType
  | cls : Nat → TSubclassOfType
deriving DecidableEq

/-- `std::numeric_limits<int>::min()`: the reserved "invalid" sentinel. -/
def IntMin : Int := -(2 ^ 31)

/-- `std::numeric_limits<int>::max()`. -/
def IntMax : Int := 2 ^ 31 - 1

/-- The registry state `std::map<int, TSubclassOfType> TSubclassOfMap`,
as an association list in ascending key order. -/
abbrev Registry := List (Int × TSubclassOfType)

/-- The `std::map` representation invariant: keys strictly ascending (hence
unique), matching the map's iteration order. -/
@[reducible] def RegSorted (m : Registry) : Prop :=
  m.Pairwise (fun a b => a.1 < b.1)

/-- `std::map::find` on the association list: first entry with the given key
(unique under `RegSorted`); `none` when absent. -/
def mapFind : Registry → Int → Option TSubclassOfType
  | [], _ => none
  | e :: rest, id => if e.1 = id then some e.2 else mapFind rest id

/-- `map[id] = v`: insert-or-replace, keeping the ascending key order. -/
def mapInsert : Registry → Int → TSubclassOfType → Registry
  | [], id, v => [(id, v)]
  | e :: rest, id, v =>
    if id < e.1 then (id, v) :: e :: rest
    else if id = e.1 then (id, v) :: rest
    else e :: mapInsert rest id v

/-- `RegisterTSubclassOf(int id, TSubclassOfType const& subclass)`:
`TSubclassOfMap[id] = subclass`, unconditionally (silent overwrite). -/
def RegisterTSubclassOfWithId (m : Registry) (id : Int)
    (subclass : TSubclassOfType) : Registry :=
  mapInsert m id subclass

/-- The `while (Id != TSubclassOfMap.end()) { ++NewId; ... }` scan of
`GetNextID`, with explicit fuel.  Each iteration advances only when the
current candidate is an existing key, so `m.length + 1` fuel always
suffices (proved in `scanFree_spec`). -/
def scanFree (m : Registry) : Nat → Int → Int
  | 0, cur => cur
  | fuel + 1, cur =>
    if (mapFind m cur).isSome then scanFree m fuel (cur + 1) else cur

/-- `GetNextID`: first-fit ascending scan for a free identifier, starting at
`std::numeric_limits<int>::min() + 1`. -/
def GetNextID (m : Registry) : Int :=
  scanFree m (m.length + 1) (IntMin + 1)

/-- `RegisterTSubclassOf(TSubclassOfType const& subclass)`:
`TSubclassOfMap[GetNextID()] = subclass`. -/
def RegisterTSubclassOfAuto (m : Registry) (subclass : TSubclassOfType) :
    Registry :=
  mapInsert m (GetNextID m) subclass

/-- `GetIdOfTSubclassOf`: linear scan over the map in iteration order,
returning the key of the first entry whose value equals `subclass`, else
`std::numeric_limits<int>::min()`. -/
def GetIdOfTSubclassOf : Registry → TSubclassOfType → Int
  | [], _ => IntMin
  | e :: rest, subclass =>
    if e.2 = subclass then e.1 else GetIdOfTSubclassOf rest subclass

/-- `GetTSubclassOfFromId`: forward lookup, defaulting to the empty handle
`TSubclassOfType()` when the identifier is absent.  The C++ member only calls
`std::map::find`, so it never mutates the registry; the embedding is
accordingly a pure function of the state. -/
def GetTSubclassOfFromId (m : Registry) (id : Int) : TSubclassOfType :=
  (mapFind m id).getD TSubclassOfType.empty

/-- `GetNumberOfRegistrations`: `TSubclassOfMap.size()`. -/
def GetNumberOfRegistrations (m : Registry) : Nat :=
  m.length

/-- `UnregsterAll` (sic): `TSubclassOfMap.clear()`. -/
def UnregsterAll (_ : Registry) : Registry :=
  []

/-! ### Class-reference codec (`cereal::serialize(A&, TSubclassOfType&)`)

The wire for this codec is a list of `Int` tokens.  The single branching
`serialize` template splits into its save branch (`is_loading == false`:
`ar(GetIdOfTSubclassOf(obj))`, one integer written) and its load branch
(`is_loading == true`: read one integer `x`, then
`obj = GetTSubclassOfFromId(x)`). -/

/-- Save branch of `cereal::serialize` for `TSubclassOfType`: writes
`GetIdOfTSubclassOf(obj)` as a single integer token. -/
def saveTSubclassOf (m : Registry) (obj : TSubclassOfType) : List Int :=
  [GetIdOfTSubclassOf m obj]

/-- Load branch of `cereal::serialize` for `TSubclassOfType`: reads one
integer token and resolves it through `GetTSubclassOfFromId`; returns the
loaded handle and the remaining wire. -/
def loadTSubclassOf (m : Registry) :
    List Int → Option (TSubclassOfType × List Int)
  | x :: rest => some (GetTSubclassOfFromId m x, rest)
  | [] => none

/-! ### `FBox` codec

`serialize(A&, FBox&)` issues three `make_nvp` calls, each carrying an
`FVector` member reference.  The wire is a list of `(name, FVector)` pairs;
the name is advisory (ignored positionally on load, as for binary archives —
value order is the contract either way).  The scalar components of `FVector`
are carried verbatim by the codec (no arithmetic is performed on them), so an
exact carrier type (`Int`) stands in for the floating-point components. -/

/-- The `FVector` member type of `FBox` (components carried verbatim). -/
structure FVector where
  X : Int
  Y : Int
  Z : Int
deriving DecidableEq

/-- `FBox`: `Min`, `Max` vectors plus the `IsValid` flag byte (a `uint8`,
embedded as `Nat`; it is never arithmetic-manipulated by the codec). -/
structure FBox where
  Min : FVector
  Max : FVector
  IsValid : Nat
deriving DecidableEq

/-- Save branch of `serialize(A&, FBox&)`, exactly as written in the source:
`ar(make_nvp("IsValid", in.Max), make_nvp("Min", in.Min),
make_nvp("Max", in.Max))` — note the first nvp pairs the name `"IsValid"`
with the member `in.Max`. -/
def save_FBox (b : FBox) : List (String × FVector) :=
  [("IsValid", b.Max), ("Min", b.Min), ("Max", b.Max)]

/-- Load branch of the same `serialize(A&, FBox&)` call: cereal reads the
three archived values, in order, into the member references named in the
call — `in.Max`, then `in.Min`, then `in.Max` again — starting from the
destination object `dest`. -/
def load_FBox (dest : FBox) :
    List (String × FVector) → Option (FBox × List (String × FVector))
  | (_, v1) :: (_, v2) :: (_, v3) :: rest =>
    let b1 : FBox := { dest with Max := v1 }
    let b2 : FBox := { b1 with Min := v2 }
    let b3 : FBox := { b2 with Max := v3 }
    some (b3, rest)
  | _ => none

/-! ### `TArray` container codec

`CEREAL_SAVE_FUNCTION_NAME(A&, const TArray<E, L>&)` writes a size tag and
then every element in iteration order; the load counterpart reads the size
tag, calls `SetNum(size)` on the destination and then reads exactly `size`
elements in order, each fully overwriting its slot.  The codec is generic in
the element type: it only requires that an element codec exist.  The wire is
a list of tokens that are either size tags or element-level tokens of an
arbitrary token type `W`; the element codec is a parameter
(`sv` to write one element, `ld` to read one element off the front). -/

/-- Wire token for container archives: a size tag or an element-level
token. -/
inductive Tok (W : Type) where
  | size : Nat → Tok W
  | dat : W → Tok W
deriving DecidableEq

/-- The `for (auto&& e : in) a(e);` save loop: concatenated element
encodings in iteration order. -/
def saveElems {E W : Type} (sv : E → List (Tok W)) : List E → List (Tok W)
  | [] => []
  | e :: es => sv e ++ saveElems sv es

/-- `CEREAL_SAVE_FUNCTION_NAME` for `TArray`: size tag equal to `in.Num()`,
then each element in iteration order. -/
def saveTArray {E W : Type} (sv : E → List (Tok W)) (arr : List E) :
    List (Tok W) :=
  Tok.size arr.length :: saveElems sv arr

/-- The `out.SetNum(size); for (auto&& e : out) a(e);` load loop: reads
exactly `n` elements off the wire in order (each slot fully overwritten by
its read, so reading into fresh elements is equivalent). -/
def readElems {E W : Type}
    (ld : List (Tok W) → Option (E × List (Tok W))) :
    Nat → List (Tok W) → Option (List E × List (Tok W))
  | 0, wire => some ([], wire)
  | n + 1, wire =>
    (ld wire).bind fun er =>
      (readElems ld n er.2).bind fun esr => some (er.1 :: esr.1, esr.2)

/-- `CEREAL_LOAD_FUNCTION_NAME` for `TArray`: reads the size tag, then that
many elements. -/
def loadTArray {E W : Type}
    (ld : List (Tok W) → Option (E × List (Tok W))) :
    List (Tok W) → Option (List E × List (Tok W))
  | Tok.size n :: rest => readElems ld n rest
  | _ => none

/-- A concrete element codec for witnesses: a `Nat` element written as one
data token. -/
def natSave (e : Nat) : List (Tok Nat) :=
  [Tok.dat e]

/-- Load counterpart of `natSave`. -/
def natLoad : List (Tok Nat) → Option (Nat × List (Tok Nat))
  | Tok.dat w :: rest => some (w, rest)
  | _ => none

/-! ### Iterated auto-registration (for the batch claims) -/

/-- `n` successive calls of `RegisterTSubclassOf(subclass)` (auto-id
overload), one per listed handle. -/
def registerAutoAll : Registry → List TSubclassOfType → Registry
  | m, [] => m
  | m, s :: rest => registerAutoAll (RegisterTSubclassOfAuto m s) rest

/-- The identifiers `GetNextID` hands out across a `registerAutoAll` run,
in call order. -/
def allocatedIds : Registry → List TSubclassOfType → List Int
  | _, [] => []
  | m, s :: rest => GetNextID m :: allocatedIds (RegisterTSubclassOfAuto m s) rest

/-- `i` is the identifier a first-fit ascending scan from `IntMin + 1` finds
in state `m`: free, at or above the start, with every identifier between the
start and `i` already taken. -/
def IsFirstFit (m : Registry) (i : Int) : Prop :=
  mapFind m i = none ∧ IntMin + 1 ≤ i ∧
    ∀ j : Int, IntMin + 1 ≤ j → j < i → mapFind m j ≠ none

/-- Every allocation in a `registerAutoAll` run is first-fit with respect to
the registry state at its own call. -/
def FirstFitChain : Registry → List TSubclassOfType → Prop
  | _, [] => True
  | m, s :: rest =>
    IsFirstFit m (GetNextID m) ∧ FirstFitChain (RegisterTSubclassOfAuto m s) rest

/-! ## Helper lemmas about the registry operations -/

theorem mapFind_cons (e : Int × TSubclassOfType) (rest : Registry) (i : Int) :
    mapFind (e :: rest) i = if e.1 = i then some e.2 else mapFind rest i :=
  rfl

theorem mapInsert_nil (id : Int) (v : TSubclassOfType) :
    mapInsert [] id v = [(id, v)] :=
  rfl

theorem mapInsert_cons (e : Int × TSubclassOfType) (rest : Registry)
    (id : Int) (v : TSubclassOfType) :
    mapInsert (e :: rest) id v =
      if id < e.1 then (id, v) :: e :: rest
      else if id = e.1 then (id, v) :: rest
      else e :: mapInsert rest id v :=
  rfl

theorem mem_keys_of_mapFind_isSome {m : Registry} {i : Int}
    (h : (mapFind m i).isSome) : i ∈ m.map Prod.fst := by
  induction m with
  | nil => simp [mapFind] at h
  | cons e rest ih =>
    by_cases he : e.1 = i
    · simp [he]
    · simp only [mapFind, if_neg he] at h
      simpa using Or.inr (ih h)

theorem countP_succ_lt {l : List Int} {cur : Int} (h : cur ∈ l) :
    l.countP (fun k => decide (cur + 1 ≤ k)) <
      l.countP (fun k => decide (cur ≤ k)) := by
  induction l with
  | nil => simp at h
  | cons a t ih =>
    rw [List.countP_cons, List.countP_cons]
    have hmono : t.countP (fun k => decide (cur + 1 ≤ k)) ≤
        t.countP (fun k => decide (cur ≤ k)) :=
      List.countP_mono_left (by
        intro x _ hx
        simp only [decide_eq_true_eq] at hx ⊢
        omega)
    rcases List.mem_cons.mp h with rfl | ht
    · have h1 : ¬ (cur + 1 ≤ cur) := by omega
      rw [if_neg (by simp), if_pos (by simp)]
      omega
    · have hlt := ih ht
      have ha : (if decide (cur + 1 ≤ a) = true then 1 else 0) ≤
          (if decide (cur ≤ a) = true then 1 else 0) := by
        by_cases hc : cur + 1 ≤ a
        · have hc' : cur ≤ a := by omega
          simp [hc, hc']
        · simp [hc]
      omega

theorem scanFree_spec (m : Registry) :
    ∀ (fuel : Nat) (cur : Int),
      (m.map Prod.fst).countP (fun k => decide (cur ≤ k)) < fuel →
      mapFind m (scanFree m fuel cur) = none ∧
      cur ≤ scanFree m fuel cur ∧
      ∀ j : Int, cur ≤ j → j < scanFree m fuel cur → mapFind m j ≠ none := by
  intro fuel
  induction fuel with
  | zero => exact fun cur h => absurd h (Nat.not_lt_zero _)
  | succ fuel ih =>
    intro cur h
    by_cases hc : (mapFind m cur).isSome
    · have hmem : cur ∈ m.map Prod.fst := mem_keys_of_mapFind_isSome hc
      have hlt := countP_succ_lt hmem
      have hrec := ih (cur + 1) (by omega)
      rw [scanFree, if_pos hc]
      refine ⟨hrec.1, by have := hrec.2.1; omega, ?_⟩
      intro j hj1 hj2
      rcases eq_or_lt_of_le hj1 with rfl | hj
      · intro hnone
        rw [hnone] at hc
        simp at hc
      · exact hrec.2.2 j (by omega) hj2
    · rw [scanFree, if_neg hc]
      refine ⟨?_, le_refl cur, fun j hj1 hj2 => absurd hj2 (by omega)⟩
      cases hfind : mapFind m cur with
      | none => rfl
      | some v => rw [hfind] at hc; simp at hc

theorem getNextID_isFirstFit (m : Registry) : IsFirstFit m (GetNextID m) := by
  have hb : (m.map Prod.fst).countP (fun k => decide (IntMin + 1 ≤ k)) <
      m.length + 1 := by
    have h1 := List.countP_le_length
      (fun k => decide (IntMin + 1 ≤ k)) (l := m.map Prod.fst)
    rw [List.length_map] at h1
    omega
  have h := scanFree_spec m (m.length + 1) (IntMin + 1) hb
  exact ⟨h.1, h.2.1, h.2.2⟩

theorem mapFind_mapInsert_self (m : Registry) (id : Int) (v : TSubclassOfType) :
    mapFind (mapInsert m id v) id = some v := by
  induction m with
  | nil => rw [mapInsert_nil, mapFind_cons]; simp
  | cons e rest ih =>
    rw [mapInsert_cons]
    by_cases h1 : id < e.1
    · rw [if_pos h1, mapFind_cons]
      simp
    · rw [if_neg h1]
      by_cases h2 : id = e.1
      · rw [if_pos h2, mapFind_cons]
        simp
      · rw [if_neg h2, mapFind_cons, if_neg (fun hh => h2 hh.symm)]
        exact ih

theorem mapFind_mapInsert_ne (m : Registry) {id i : Int} (v : TSubclassOfType)
    (hne : i ≠ id) : mapFind (mapInsert m id v) i = mapFind m i := by
  have hne' : ¬ (id = i) := fun hh => hne hh.symm
  induction m with
  | nil =>
    rw [mapInsert_nil, mapFind_cons]
    simp [hne']
  | cons e rest ih =>
    rw [mapInsert_cons]
    by_cases h1 : id < e.1
    · rw [if_pos h1, mapFind_cons]
      simp [hne']
    · rw [if_neg h1]
      by_cases h2 : id = e.1
      · rw [if_pos h2, mapFind_cons, mapFind_cons]
        have hei : ¬ (e.1 = i) := fun hh => hne' (h2.trans hh)
        simp [hne', hei]
      · rw [if_neg h2, mapFind_cons, mapFind_cons]
        by_cases he : e.1 = i
        · simp [he]
        · simp [he, ih]

theorem length_mapInsert_of_fresh (m : Registry) {id : Int}
    (v : TSubclassOfType) (h : mapFind m id = none) :
    (mapInsert m id v).length = m.length + 1 := by
  induction m with
  | nil => simp [mapInsert]
  | cons e rest ih =>
    have he : ¬ (e.1 = id) := by
      intro hh
      rw [mapFind, if_pos hh] at h
      exact Option.noConfusion h
    rw [mapFind, if_neg he] at h
    by_cases h1 : id < e.1
    · simp [mapInsert, h1]
    · by_cases h2 : id = e.1
      · exact absurd h2.symm he
      · simp [mapInsert, h1, h2, ih h]

theorem mem_mapInsert {m : Registry} {id : Int} {v : TSubclassOfType}
    {x : Int × TSubclassOfType} (h : x ∈ mapInsert m id v) :
    x = (id, v) ∨ x ∈ m := by
  induction m with
  | nil =>
    simp only [mapInsert, List.mem_singleton] at h
    exact Or.inl h
  | cons e rest ih =>
    by_cases h1 : id < e.1
    · simp only [mapInsert, if_pos h1] at h
      rcases List.mem_cons.mp h with rfl | h'
      · exact Or.inl rfl
      · exact Or.inr h'
    · by_cases h2 : id = e.1
      · simp only [mapInsert, if_neg h1, if_pos h2] at h
        rcases List.mem_cons.mp h with rfl | h'
        · exact Or.inl rfl
        · exact Or.inr (List.mem_cons_of_mem e h')
      · simp only [mapInsert, if_neg h1, if_neg h2] at h
        rcases List.mem_cons.mp h with rfl | h'
        · exact Or.inr (List.mem_cons_self ..)
        · rcases ih h' with h'' | h''
          · exact Or.inl h''
          · exact Or.inr (List.mem_cons_of_mem e h'')

theorem regSorted_mapInsert {m : Registry} (id : Int) (v : TSubclassOfType)
    (hs : RegSorted m) : RegSorted (mapInsert m id v) := by
  induction m with
  | nil => simp [mapInsert, RegSorted]
  | cons e rest ih =>
    rw [RegSorted, List.pairwise_cons] at hs
    obtain ⟨hhead, htail⟩ := hs
    by_cases h1 : id < e.1
    · simp only [mapInsert, if_pos h1]
      rw [RegSorted, List.pairwise_cons]
      refine ⟨?_, ?_⟩
      · intro y hy
        rcases List.mem_cons.mp hy with rfl | hy'
        · exact h1
        · exact lt_trans h1 (hhead y hy')
      · rw [List.pairwise_cons]
        exact ⟨hhead, htail⟩
    · by_cases h2 : id = e.1
      · simp only [mapInsert, if_neg h1, if_pos h2]
        rw [RegSorted, List.pairwise_cons]
        exact ⟨fun y hy => h2 ▸ hhead y hy, htail⟩
      · simp only [mapInsert, if_neg h1, if_neg h2]
        rw [RegSorted, List.pairwise_cons]
        refine ⟨?_, ih htail⟩
        intro y hy
        rcases mem_mapInsert hy with rfl | hy'
        · show e.1 < id
          omega
        · exact hhead y hy'

/-! ## Helper lemmas about the lookup functions -/

theorem getId_mem {m : Registry} {h : TSubclassOfType}
    (hex : ∃ e ∈ m, e.2 = h) : (GetIdOfTSubclassOf m h, h) ∈ m := by
  induction m with
  | nil => simp at hex
  | cons e rest ih =>
    by_cases he : e.2 = h
    · simp only [GetIdOfTSubclassOf, if_pos he]
      exact (by rw [← he] : (e.1, h) = e) ▸ List.mem_cons_self ..
    · simp only [GetIdOfTSubclassOf, if_neg he]
      have hex' : ∃ x ∈ rest, x.2 = h := by
        rcases hex with ⟨x, hx, hxh⟩
        rcases List.mem_cons.mp hx with rfl | hx'
        · exact absurd hxh he
        · exact ⟨x, hx', hxh⟩
      exact List.mem_cons_of_mem e (ih hex')

theorem getId_mem_of_ne_min {m : Registry} {h : TSubclassOfType}
    (hne : GetIdOfTSubclassOf m h ≠ IntMin) :
    (GetIdOfTSubclassOf m h, h) ∈ m := by
  induction m with
  | nil => exact absurd rfl hne
  | cons e rest ih =>
    by_cases he : e.2 = h
    · simp only [GetIdOfTSubclassOf, if_pos he]
      exact (by rw [← he] : (e.1, h) = e) ▸ List.mem_cons_self ..
    · simp only [GetIdOfTSubclassOf, if_neg he] at hne ⊢
      exact List.mem_cons_of_mem e (ih hne)

theorem getId_of_not_found {m : Registry} {h : TSubclassOfType}
    (hno : ∀ e ∈ m, e.2 ≠ h) : GetIdOfTSubclassOf m h = IntMin := by
  induction m with
  | nil => rfl
  | cons e rest ih =>
    have he : ¬ (e.2 = h) := hno e (List.mem_cons_self ..)
    simp only [GetIdOfTSubclassOf, if_neg he]
    exact ih (fun x hx => hno x (List.mem_cons_of_mem e hx))

theorem getId_le_of_mem {m : Registry} {h : TSubclassOfType} {k : Int}
    (hs : RegSorted m) (hk : (k, h) ∈ m) :
    GetIdOfTSubclassOf m h ≤ k := by
  induction m with
  | nil => simp at hk
  | cons e rest ih =>
    rw [RegSorted, List.pairwise_cons] at hs
    obtain ⟨hhead, htail⟩ := hs
    by_cases he : e.2 = h
    · simp only [GetIdOfTSubclassOf, if_pos he]
      rcases List.mem_cons.mp hk with heq | hk'
      · cases heq
        exact le_refl _
      · exact le_of_lt (hhead _ hk')
    · simp only [GetIdOfTSubclassOf, if_neg he]
      rcases List.mem_cons.mp hk with heq | hk'
      · exact absurd (congrArg Prod.snd heq).symm he
      · exact ih htail hk'

theorem mapFind_of_mem_sorted {m : Registry} {k : Int} {h : TSubclassOfType}
    (hs : RegSorted m) (hk : (k, h) ∈ m) : mapFind m k = some h := by
  induction m with
  | nil => simp at hk
  | cons e rest ih =>
    rw [RegSorted, List.pairwise_cons] at hs
    obtain ⟨hhead, htail⟩ := hs
    rcases List.mem_cons.mp hk with heq | hk'
    · cases heq
      simp [mapFind]
    · have h2 : e.1 < k := hhead _ hk'
      have hke : ¬ (e.1 = k) := by omega
      simp only [mapFind, if_neg hke]
      exact ih htail hk'

/-! ## Helper lemmas about iterated auto-registration -/

theorem registerAutoAll_spec (hs : List TSubclassOfType) :
    ∀ m : Registry,
      (registerAutoAll m hs).length = m.length + hs.length ∧
      (allocatedIds m hs).Nodup ∧
      (∀ i ∈ allocatedIds m hs, IntMin + 1 ≤ i ∧ mapFind m i = none) ∧
      (∀ i : Int, (mapFind m i).isSome →
        (mapFind (registerAutoAll m hs) i).isSome) ∧
      FirstFitChain m hs := by
  induction hs with
  | nil =>
    intro m
    exact ⟨rfl, List.nodup_nil, by simp [allocatedIds], fun i hi => hi, trivial⟩
  | cons s rest ih =>
    intro m
    have hff := getNextID_isFirstFit m
    have hfree : mapFind m (GetNextID m) = none := hff.1
    have hm'find :
        mapFind (RegisterTSubclassOfAuto m s) (GetNextID m) = some s :=
      mapFind_mapInsert_self m (GetNextID m) s
    obtain ⟨ihlen, ihnodup, ihfree, ihmono, ihchain⟩ :=
      ih (RegisterTSubclassOfAuto m s)
    have hlen' : (RegisterTSubclassOfAuto m s).length = m.length + 1 :=
      length_mapInsert_of_fresh m s hfree
    refine ⟨?_, ?_, ?_, ?_, ?_⟩
    · show (registerAutoAll (RegisterTSubclassOfAuto m s) rest).length =
        m.length + (rest.length + 1)
      omega
    · show (GetNextID m :: allocatedIds (RegisterTSubclassOfAuto m s) rest).Nodup
      rw [List.nodup_cons]
      refine ⟨?_, ihnodup⟩
      intro hmem
      exact Option.noConfusion (((ihfree _ hmem).2).symm.trans hm'find)
    · intro i hi
      have hi' : i ∈ GetNextID m ::
          allocatedIds (RegisterTSubclassOfAuto m s) rest := hi
      rcases List.mem_cons.mp hi' with rfl | hi2
      · exact ⟨hff.2.1, hfree⟩
      · have h2 := ihfree i hi2
        refine ⟨h2.1, ?_⟩
        by_cases heq : i = GetNextID m
        · subst heq
          exact Option.noConfusion ((h2.2).symm.trans hm'find)
        · have h3 : mapFind (mapInsert m (GetNextID m) s) i = mapFind m i :=
            mapFind_mapInsert_ne m s heq
          exact h3.symm.trans h2.2
    · intro i hisome
      show (mapFind (registerAutoAll (RegisterTSubclassOfAuto m s) rest) i).isSome
      apply ihmono
      by_cases heq : i = GetNextID m
      · subst heq
        rw [hm'find]
        rfl
      · have h3 : mapFind (mapInsert m (GetNextID m) s) i = mapFind m i :=
          mapFind_mapInsert_ne m s heq
        show (mapFind (mapInsert m (GetNextID m) s) i).isSome
        rw [h3]
        exact hisome
    · exact ⟨hff, ihchain⟩

/-! ## Helper lemma for the `TArray` codec -/

theorem readElems_saveElems {E W : Type} (sv : E → List (Tok W))
    (ld : List (Tok W) → Option (E × List (Tok W)))
    (hrt : ∀ (e : E) (rest : List (Tok W)), ld (sv e ++ rest) = some (e, rest)) :
    ∀ (s : List E) (rest : List (Tok W)),
      readElems ld s.length (saveElems sv s ++ rest) = some (s, rest) := by
  intro s
  induction s with
  | nil => intro rest; rfl
  | cons e es ih =>
    intro rest
    show readElems ld (es.length + 1) ((sv e ++ saveElems sv es) ++ rest) =
      some (e :: es, rest)
    rw [List.append_assoc]
    simp only [readElems]
    rw [hrt e (saveElems sv es ++ rest)]
    simp only [Option.some_bind]
    rw [ih rest]
    rfl

/-! ## Claim theorems -/

/-- C1 (code bug): the `FBox` codec pairs the name `"IsValid"` with the
member `in.Max`, so the box's `IsValid` field is never written and `Max` is
written twice.  At the degenerate zero-extent box with `IsValid = 1`,
deserializing the serialized form into a default destination
(`IsValid = 0`) returns a box whose `IsValid` is `0`, not the original `1`:
`load(save(v)) ≠ v`, and the fields are not each written exactly once. -/
theorem fbox_roundtrip_fails_at_degenerate_box :
    save_FBox ⟨⟨0, 0, 0⟩, ⟨0, 0, 0⟩, 1⟩ =
      [("IsValid", ⟨0, 0, 0⟩), ("Min", ⟨0, 0, 0⟩), ("Max", ⟨0, 0, 0⟩)] ∧
    load_FBox ⟨⟨0, 0, 0⟩, ⟨0, 0, 0⟩, 0⟩
        (save_FBox ⟨⟨0, 0, 0⟩, ⟨0, 0, 0⟩, 1⟩) =
      some (⟨⟨0, 0, 0⟩, ⟨0, 0, 0⟩, 0⟩, []) ∧
    (⟨⟨0, 0, 0⟩, ⟨0, 0, 0⟩, 0⟩ : FBox) ≠ ⟨⟨0, 0, 0⟩, ⟨0, 0, 0⟩, 1⟩ :=
  ⟨rfl, rfl, by decide⟩

/-- C2 counterexample: `RegisterTSubclassOf(id, subclass)` called with the
sentinel identifier on the empty registry stores a real entry at the
sentinel key, so the sentinel-is-never-a-key invariant is not preserved by
`registerWithId` with an arbitrary caller-chosen identifier. -/
theorem registerWithId_sentinel_violation :
    mapFind (RegisterTSubclassOfWithId [] IntMin TSubclassOfType.empty)
        IntMin = some TSubclassOfType.empty ∧
    ¬ mapFind (RegisterTSubclassOfWithId [] IntMin TSubclassOfType.empty)
        IntMin = none :=
  ⟨rfl, by decide⟩

/-- C2 (amended): the sentinel-free invariant is preserved by
`registerWithId` whenever the caller-chosen identifier is not the sentinel,
and by `registerAuto` always (the automatic allocator only returns
identifiers strictly above the sentinel); `registerWithId` called with the
sentinel itself, however, stores a real entry at the sentinel key. -/
theorem sentinel_invariant_preserved (m : Registry) (id : Int)
    (s : TSubclassOfType) (hid : id ≠ IntMin)
    (hm : mapFind m IntMin = none) :
    mapFind (RegisterTSubclassOfWithId m id s) IntMin = none ∧
    mapFind (RegisterTSubclassOfAuto m s) IntMin = none ∧
    IntMin < GetNextID m := by
  have hff := getNextID_isFirstFit m
  have hgt : IntMin < GetNextID m := by
    have := hff.2.1
    omega
  refine ⟨?_, ?_, hgt⟩
  · exact (mapFind_mapInsert_ne m s (fun hh => hid hh.symm)).trans hm
  · exact (mapFind_mapInsert_ne m s (by omega)).trans hm

/-- Witness for C2's amended theorem at a concrete registry. -/
theorem sentinel_invariant_preserved_witness :
    (5 : Int) ≠ IntMin ∧ mapFind [] IntMin = none ∧
    (mapFind (RegisterTSubclassOfWithId [] 5 (TSubclassOfType.cls 1))
        IntMin = none ∧
      mapFind (RegisterTSubclassOfAuto [] (TSubclassOfType.cls 1))
        IntMin = none ∧
      IntMin < GetNextID []) :=
  ⟨by decide, rfl,
    sentinel_invariant_preserved [] 5 (TSubclassOfType.cls 1) (by decide) rfl⟩

/-- C3 counterexample: the round trip of the class-reference codec does not
recover a handle equal to the original *exactly* when the handle was
registered.  First input: in the empty registry the (unregistered) empty
handle still round-trips to itself.  Second input: with a real entry stored
at the sentinel key (reachable through `registerWithId`), an unregistered
handle loads back as that entry's handle, not as the empty handle. -/
theorem classref_roundtrip_not_iff :
    (loadTSubclassOf [] (saveTSubclassOf [] TSubclassOfType.empty) =
        some (TSubclassOfType.empty, []) ∧
      ¬ ∃ e ∈ ([] : Registry), e.2 = TSubclassOfType.empty) ∧
    loadTSubclassOf [(IntMin, TSubclassOfType.cls 7)]
        (saveTSubclassOf [(IntMin, TSubclassOfType.cls 7)]
          (TSubclassOfType.cls 9)) =
      some (TSubclassOfType.cls 7, []) :=
  ⟨⟨rfl, by simp⟩, rfl⟩

/-- C3 (amended): the codec writes `idOf(handle)` as one integer on save and
resolves one read integer via `handleOf` on load; the round trip recovers a
handle equal to the original whenever the handle is registered; when it was
never registered, the save writes the sentinel and — provided no entry
occupies the sentinel key — the load yields the empty/default handle, with
no error (so the round-trip result equals the original also in the one
unregistered case where the original is itself the empty handle). -/
theorem classref_roundtrip (m : Registry) (h : TSubclassOfType)
    (hs : RegSorted m) :
    ((∃ e ∈ m, e.2 = h) →
      loadTSubclassOf m (saveTSubclassOf m h) = some (h, [])) ∧
    ((∀ e ∈ m, e.2 ≠ h) →
      saveTSubclassOf m h = [IntMin] ∧
      (mapFind m IntMin = none →
        loadTSubclassOf m (saveTSubclassOf m h) =
          some (TSubclassOfType.empty, []))) := by
  constructor
  · intro hex
    have hmem := getId_mem hex
    have hfind := mapFind_of_mem_sorted hs hmem
    show some (GetTSubclassOfFromId m (GetIdOfTSubclassOf m h), []) =
      some (h, [])
    simp only [GetTSubclassOfFromId]
    rw [hfind]
    rfl
  · intro hno
    have hid := getId_of_not_found hno
    constructor
    · show [GetIdOfTSubclassOf m h] = [IntMin]
      rw [hid]
    · intro hsent
      show some (GetTSubclassOfFromId m (GetIdOfTSubclassOf m h), []) =
        some (TSubclassOfType.empty, [])
      simp only [GetTSubclassOfFromId]
      rw [hid, hsent]
      rfl

/-- Witness for C3's amended theorem at a concrete registry. -/
theorem classref_roundtrip_witness :
    RegSorted [((1 : Int), TSubclassOfType.cls 5)] ∧
    (((∃ e ∈ [((1 : Int), TSubclassOfType.cls 5)],
        e.2 = TSubclassOfType.cls 5) →
      loadTSubclassOf [((1 : Int), TSubclassOfType.cls 5)]
          (saveTSubclassOf [((1 : Int), TSubclassOfType.cls 5)]
            (TSubclassOfType.cls 5)) =
        some (TSubclassOfType.cls 5, [])) ∧
    ((∀ e ∈ [((1 : Int), TSubclassOfType.cls 5)],
        e.2 ≠ TSubclassOfType.cls 5) →
      saveTSubclassOf [((1 : Int), TSubclassOfType.cls 5)]
          (TSubclassOfType.cls 5) = [IntMin] ∧
      (mapFind [((1 : Int), TSubclassOfType.cls 5)] IntMin = none →
        loadTSubclassOf [((1 : Int), TSubclassOfType.cls 5)]
            (saveTSubclassOf [((1 : Int), TSubclassOfType.cls 5)]
              (TSubclassOfType.cls 5)) =
          some (TSubclassOfType.empty, [])))) :=
  ⟨by decide,
    classref_roundtrip [((1 : Int), TSubclassOfType.cls 5)]
      (TSubclassOfType.cls 5) (by decide)⟩

/-- C4: starting from any registry state, `n` auto-registrations with
distinct handles store `n` entries (size grows by `n`) under `n` distinct
identifiers, each strictly greater than the sentinel, none equal to a
pre-existing identifier, and each allocated by a first-fit ascending scan
from `IntMin + 1` over the state at its own call. -/
theorem registerAuto_batch (m : Registry) (hs : List TSubclassOfType)
    (_hdist : hs.Nodup) :
    (registerAutoAll m hs).length = m.length + hs.length ∧
    (allocatedIds m hs).Nodup ∧
    (∀ i ∈ allocatedIds m hs, IntMin < i ∧ mapFind m i = none) ∧
    FirstFitChain m hs := by
  obtain ⟨hlen, hnodup, hfree, _, hchain⟩ := registerAutoAll_spec hs m
  refine ⟨hlen, hnodup, ?_, hchain⟩
  intro i hi
  refine ⟨?_, (hfree i hi).2⟩
  have := (hfree i hi).1
  omega

/-- Witness for C4 at a concrete starting state and handle list. -/
theorem registerAuto_batch_witness :
    ([TSubclassOfType.cls 1, TSubclassOfType.cls 2].Nodup) ∧
    ((registerAutoAll [] [TSubclassOfType.cls 1, TSubclassOfType.cls 2]).length =
        List.length ([] : Registry) + 2 ∧
      (allocatedIds [] [TSubclassOfType.cls 1, TSubclassOfType.cls 2]).Nodup ∧
      (∀ i ∈ allocatedIds [] [TSubclassOfType.cls 1, TSubclassOfType.cls 2],
        IntMin < i ∧ mapFind [] i = none) ∧
      FirstFitChain [] [TSubclassOfType.cls 1, TSubclassOfType.cls 2]) :=
  ⟨by decide,
    registerAuto_batch [] [TSubclassOfType.cls 1, TSubclassOfType.cls 2]
      (by decide)⟩

/-- C5: for every registry state (with the `std::map` key invariant) and
every handle, if `GetIdOfTSubclassOf` does not return the sentinel, then
resolving the returned identifier with `GetTSubclassOfFromId` recovers the
same handle: `handleOf(idOf(h)) == h`. -/
theorem handleOf_idOf_roundtrip (m : Registry) (h : TSubclassOfType)
    (hs : RegSorted m) (hne : GetIdOfTSubclassOf m h ≠ IntMin) :
    GetTSubclassOfFromId m (GetIdOfTSubclassOf m h) = h := by
  have hmem := getId_mem_of_ne_min hne
  have hfind := mapFind_of_mem_sorted hs hmem
  simp only [GetTSubclassOfFromId]
  rw [hfind]
  rfl

/-- Witness for C5 at a concrete registry. -/
theorem handleOf_idOf_roundtrip_witness :
    RegSorted [((1 : Int), TSubclassOfType.cls 5)] ∧
    GetIdOfTSubclassOf [((1 : Int), TSubclassOfType.cls 5)]
      (TSubclassOfType.cls 5) ≠ IntMin ∧
    GetTSubclassOfFromId [((1 : Int), TSubclassOfType.cls 5)]
      (GetIdOfTSubclassOf [((1 : Int), TSubclassOfType.cls 5)]
        (TSubclassOfType.cls 5)) = TSubclassOfType.cls 5 :=
  ⟨by decide, by decide,
    handleOf_idOf_roundtrip [((1 : Int), TSubclassOfType.cls 5)]
      (TSubclassOfType.cls 5) (by decide) (by decide)⟩

/-- C6: for every registry state and every handle that equals no stored
entry's handle, `GetIdOfTSubclassOf` returns the reserved sentinel
`std::numeric_limits<int>::min()`. -/
theorem idOf_unregistered_sentinel (m : Registry) (h : TSubclassOfType)
    (hno : ∀ e ∈ m, e.2 ≠ h) : GetIdOfTSubclassOf m h = IntMin :=
  getId_of_not_found hno

/-- Witness for C6 at a concrete registry. -/
theorem idOf_unregistered_sentinel_witness :
    (∀ e ∈ [((1 : Int), TSubclassOfType.cls 5)],
      e.2 ≠ TSubclassOfType.cls 9) ∧
    GetIdOfTSubclassOf [((1 : Int), TSubclassOfType.cls 5)]
      (TSubclassOfType.cls 9) = IntMin :=
  ⟨by decide,
    idOf_unregistered_sentinel [((1 : Int), TSubclassOfType.cls 5)]
      (TSubclassOfType.cls 9) (by decide)⟩

/-- C7: for every registry state and every identifier absent from the map,
`GetTSubclassOfFromId` returns the empty/default handle and signals no
error (it is a total function; the C++ member only calls `std::map::find`,
so the embedding is a pure function of the unchanged state). -/
theorem handleOf_absent_empty (m : Registry) (id : Int)
    (habs : mapFind m id = none) :
    GetTSubclassOfFromId m id = TSubclassOfType.empty := by
  simp only [GetTSubclassOfFromId]
  rw [habs]
  rfl

/-- Witness for C7 at a concrete registry. -/
theorem handleOf_absent_empty_witness :
    mapFind [((1 : Int), TSubclassOfType.cls 5)] 2 = none ∧
    GetTSubclassOfFromId [((1 : Int), TSubclassOfType.cls 5)] 2 =
      TSubclassOfType.empty :=
  ⟨by decide,
    handleOf_absent_empty [((1 : Int), TSubclassOfType.cls 5)] 2 (by decide)⟩

/-- C8: if a handle is stored under two or more identifiers, the reverse
lookup returns a key of an entry holding that handle, and it is less than
or equal to every identifier whose entry holds the handle — i.e. the first
match in the ascending-key iteration order of `std::map`, the numerically
smallest matching identifier. -/
theorem idOf_first_match (m : Registry) (h : TSubclassOfType) (i1 i2 : Int)
    (hs : RegSorted m) (h1 : (i1, h) ∈ m) (_h2 : (i2, h) ∈ m)
    (_hne : i1 ≠ i2) :
    (GetIdOfTSubclassOf m h, h) ∈ m ∧
    ∀ k : Int, (k, h) ∈ m → GetIdOfTSubclassOf m h ≤ k :=
  ⟨getId_mem ⟨(i1, h), h1, rfl⟩, fun _ hk => getId_le_of_mem hs hk⟩

/-- Witness for C8 at a concrete registry with a doubly-registered handle. -/
theorem idOf_first_match_witness :
    RegSorted [((1 : Int), TSubclassOfType.cls 5),
      ((2 : Int), TSubclassOfType.cls 5)] ∧
    ((1 : Int), TSubclassOfType.cls 5) ∈
      [((1 : Int), TSubclassOfType.cls 5), ((2 : Int), TSubclassOfType.cls 5)] ∧
    ((2 : Int), TSubclassOfType.cls 5) ∈
      [((1 : Int), TSubclassOfType.cls 5), ((2 : Int), TSubclassOfType.cls 5)] ∧
    (1 : Int) ≠ 2 ∧
    ((GetIdOfTSubclassOf [((1 : Int), TSubclassOfType.cls 5),
        ((2 : Int), TSubclassOfType.cls 5)] (TSubclassOfType.cls 5),
      TSubclassOfType.cls 5) ∈
      [((1 : Int), TSubclassOfType.cls 5), ((2 : Int), TSubclassOfType.cls 5)] ∧
    ∀ k : Int, (k, TSubclassOfType.cls 5) ∈
        [((1 : Int), TSubclassOfType.cls 5), ((2 : Int), TSubclassOfType.cls 5)] →
      GetIdOfTSubclassOf [((1 : Int), TSubclassOfType.cls 5),
        ((2 : Int), TSubclassOfType.cls 5)] (TSubclassOfType.cls 5) ≤ k) :=
  ⟨by decide, by decide, by decide, by decide,
    idOf_first_match _ _ 1 2 (by decide) (by decide) (by decide) (by decide)⟩

/-- C9: for every element type with a codec that reads back what it wrote,
the `TArray` save path writes a size tag equal to the element count followed
by each element in iteration order, and `load(save(s))` yields a sequence
with the same length and the same elements in the same order (for every
length, including zero). -/
theorem tarray_roundtrip {E W : Type} (sv : E → List (Tok W))
    (ld : List (Tok W) → Option (E × List (Tok W)))
    (hrt : ∀ (e : E) (rest : List (Tok W)), ld (sv e ++ rest) = some (e, rest))
    (s : List E) (rest : List (Tok W)) :
    saveTArray sv s = Tok.size s.length :: saveElems sv s ∧
    loadTArray ld (saveTArray sv s ++ rest) = some (s, rest) := by
  refine ⟨rfl, ?_⟩
  show readElems ld s.length (saveElems sv s ++ rest) = some (s, rest)
  exact readElems_saveElems sv ld hrt s rest

/-- Witness for C9 with a concrete `Nat` element codec and a length-3
sequence. -/
theorem tarray_roundtrip_witness :
    (∀ (e : Nat) (rest : List (Tok Nat)),
      natLoad (natSave e ++ rest) = some (e, rest)) ∧
    (saveTArray natSave [1, 2, 3] =
        Tok.size ([1, 2, 3] : List Nat).length :: saveElems natSave [1, 2, 3] ∧
      loadTArray natLoad (saveTArray natSave [1, 2, 3] ++ []) =
        some ([1, 2, 3], [])) :=
  ⟨fun _ _ => rfl,
    tarray_roundtrip natSave natLoad (fun _ _ => rfl) [1, 2, 3] []⟩

/-- C10: for every registry state in which some identifier in
`[IntMin + 1, IntMax]` is free, the `GetNextID` scan returns an identifier
that is not present in the registry and lies within that range (so the C++
`++NewId` loop stops before reaching `INT_MAX` overflow; the embedding's
fuel bound `m.length + 1` is proven sufficient in `scanFree_spec`). -/
theorem getNextID_terminates_fresh (m : Registry)
    (hfree : ∃ j : Int, IntMin + 1 ≤ j ∧ j ≤ IntMax ∧ mapFind m j = none) :
    mapFind m (GetNextID m) = none ∧
    IntMin + 1 ≤ GetNextID m ∧ GetNextID m ≤ IntMax := by
  obtain ⟨j, hj1, hj2, hj3⟩ := hfree
  have hff := getNextID_isFirstFit m
  refine ⟨hff.1, hff.2.1, ?_⟩
  by_contra hgt
  push_neg at hgt
  exact hff.2.2 j hj1 (by omega) hj3

/-- Witness for C10 at the empty registry. -/
theorem getNextID_terminates_fresh_witness :
    (∃ j : Int, IntMin + 1 ≤ j ∧ j ≤ IntMax ∧ mapFind [] j = none) ∧
    (mapFind [] (GetNextID []) = none ∧
      IntMin + 1 ≤ GetNextID [] ∧ GetNextID [] ≤ IntMax) :=
  ⟨⟨0, by decide, by decide, rfl⟩,
    getNextID_terminates_fresh [] ⟨0, by decide, by decide, rfl⟩⟩

end UE4Serialization
